import Mathlib

/-!
Verification development for the capability-guard analyzer
(`src/LocationAPIAnalyzer.ts` and its variant with source-based line
recovery).  The TypeScript classes are shallowly embedded: the foreign
program representation supplied by the arkanalyzer framework (methods,
statements, invoke expressions) is modelled as plain data, JavaScript
strings as Lean `String`, JS `Set` insertion as add-if-absent on a list,
and each regular-expression `match` call as an explicit leftmost-greedy
scanner over the character list.  Fallible provider lookups (a
`getMethodSignature()` that throws, an absent `getLocation()`) are
modelled as `Option` fields, and Node file-system reads as an abstract
`String → Option String` content lookup.
-/

/-! ### JavaScript string primitives -/

/-- `startsSeq p l` : does the character list `l` start with `p`
(JS `String.startsWith`, specialised to character lists). -/
def startsSeq : List Char → List Char → Bool
  | [], _ => true
  | _ :: _, [] => false
  | p :: ps, c :: cs => p == c && startsSeq ps cs

/-- `charsContain l p` : does `l` contain `p` as a contiguous subsequence
(JS `String.includes`). -/
def charsContain (p : List Char) : List Char → Bool
  | [] => p.isEmpty
  | c :: t => startsSeq p (c :: t) || charsContain p t

/-- JS `String.includes` on Lean strings. -/
def strContains (s pat : String) : Bool :=
  charsContain pat.data s.data

/-- Whitespace characters stripped by JS `String.trim`. -/
def jsWhitespaceChar (c : Char) : Bool :=
  c == ' ' || c == '\t' || c == '\n' || c == '\r' || c == '\x0b' || c == '\x0c'

/-- JS `String.trim` on a character list. -/
def jsTrim (cs : List Char) : List Char :=
  ((cs.dropWhile jsWhitespaceChar).reverse.dropWhile jsWhitespaceChar).reverse

/-- JS `String.split('\n')`: split a character list at newline characters. -/
def splitLines : List Char → List (List Char)
  | [] => [[]]
  | c :: rest =>
    let r := splitLines rest
    if c == '\n' then [] :: r
    else
      match r with
      | [] => [[c]]
      | l :: ls => (c :: l) :: ls

/-- JS `String.split('.')`: split a character list at dot characters. -/
def splitDots : List Char → List (List Char)
  | [] => [[]]
  | c :: rest =>
    let r := splitDots rest
    if c == '.' then [] :: r
    else
      match r with
      | [] => [[c]]
      | l :: ls => (c :: l) :: ls

/-! ### The regular expressions used by the analyzer

Each JS `string.match(re)` (no `g` flag) returns the leftmost match, with
greedy quantifiers; every scanner below tries to match at the current
position and otherwise advances one character. -/

/-- Character class `[A-Za-z0-9.]` of the capability pattern. -/
def capChar (c : Char) : Bool :=
  ('A' ≤ c && c ≤ 'Z') || ('a' ≤ c && c ≤ 'z') || ('0' ≤ c && c ≤ '9') || c == '.'

/-- The fixed capability-namespace literal of `/SystemCapability\.[A-Za-z0-9.]+/`. -/
def capNamespace : List Char := "SystemCapability.".data

/-- Match `/SystemCapability\.[A-Za-z0-9.]+/` anchored at the start of `cs`. -/
def capMatchAt (cs : List Char) : Option (List Char) :=
  if startsSeq capNamespace cs then
    let body := (cs.drop capNamespace.length).takeWhile capChar
    if body.isEmpty then none else some (capNamespace ++ body)
  else none

/-- Leftmost match of `/SystemCapability\.[A-Za-z0-9.]+/` in `cs`. -/
def capScan : List Char → Option (List Char)
  | [] => none
  | c :: rest =>
    match capMatchAt (c :: rest) with
    | some m => some m
    | none => capScan rest

/-- `argStr.match(/SystemCapability\.[A-Za-z0-9.]+/)`, returning `match[0]`. -/
def extractCapability (s : String) : Option String :=
  (capScan s.data).map fun cs => ⟨cs⟩

/-- ASCII digit test for `\d`. -/
def digitChar (c : Char) : Bool := '0' ≤ c && c ≤ '9'

/-- JS `parseInt` on a nonempty run of decimal digits. -/
def digitsToNat (ds : List Char) : Nat :=
  ds.foldl (fun n c => 10 * n + (c.toNat - '0'.toNat)) 0

/-- Match `/:(\d+):/` anchored at the start of `cs`, returning the parsed group. -/
def lineColMatchAt : List Char → Option Nat
  | [] => none
  | c :: rest =>
    if c == ':' then
      let ds := rest.takeWhile digitChar
      if ds.isEmpty then none
      else
        match rest.drop ds.length with
        | ':' :: _ => some (digitsToNat ds)
        | _ => none
    else none

/-- Leftmost match of `/:(\d+):/` in `cs`. -/
def lineColScan : List Char → Option Nat
  | [] => none
  | c :: rest =>
    match lineColMatchAt (c :: rest) with
    | some n => some n
    | none => lineColScan rest

/-- Match `/@([^:]+):/` anchored at the start of `cs`, returning group 1. -/
def fileMatchAt : List Char → Option (List Char)
  | [] => none
  | c :: rest =>
    if c == '@' then
      let body := rest.takeWhile (fun d => !(d == ':'))
      if body.isEmpty then none
      else
        match rest.drop body.length with
        | ':' :: _ => some body
        | _ => none
    else none

/-- Leftmost match of `/@([^:]+):/` in `cs`. -/
def fileScan : List Char → Option (List Char)
  | [] => none
  | c :: rest =>
    match fileMatchAt (c :: rest) with
    | some m => some m
    | none => fileScan rest

/-- `methodSigStr.match(/@([^:]+):/)`, returning group 1: the file name
embedded in a method signature. -/
def extractFileName (s : String) : Option String :=
  (fileScan s.data).map fun cs => ⟨cs⟩

/-- Match `/@[^:]+:(\d+):/` anchored at the start of `cs`, returning the digits group. -/
def sigLineMatchAt : List Char → Option Nat
  | [] => none
  | c :: rest =>
    if c == '@' then
      let body := rest.takeWhile (fun d => !(d == ':'))
      if body.isEmpty then none
      else
        match rest.drop body.length with
        | ':' :: r2 =>
          let ds := r2.takeWhile digitChar
          if ds.isEmpty then none
          else
            match r2.drop ds.length with
            | ':' :: _ => some (digitsToNat ds)
            | _ => none
        | _ => none
    else none

/-- Leftmost match of `/@[^:]+:(\d+):/` in `cs`. -/
def sigLineScan : List Char → Option Nat
  | [] => none
  | c :: rest =>
    match sigLineMatchAt (c :: rest) with
    | some n => some n
    | none => sigLineScan rest

/-- Character class `[^.()]` of the method-name pattern. -/
def mnClassChar (c : Char) : Bool :=
  !(c == '.' || c == '(' || c == ')')

/-- Match `/\.([^.()]+)\([^)]*\)$/` whose start is anchored at the head of
`cs` (the `$` forces the closing parenthesis to be the last character). -/
def mnMatchAt : List Char → Option (List Char)
  | [] => none
  | c :: rest =>
    if c == '.' then
      let g := rest.takeWhile mnClassChar
      if g.isEmpty then none
      else
        match rest.drop g.length with
        | '(' :: r2 =>
          let inner := r2.takeWhile (fun d => !(d == ')'))
          match r2.drop inner.length with
          | [')'] => some g
          | _ => none
        | _ => none
    else none

/-- Leftmost match of `/\.([^.()]+)\([^)]*\)$/` in `cs`. -/
def mnScan : List Char → Option (List Char)
  | [] => none
  | c :: rest =>
    match mnMatchAt (c :: rest) with
    | some g => some g
    | none => mnScan rest

/-- Does `/\([^)]*\)$/` match with its `(` at the head of `cs`? -/
def parenMatchAt : List Char → Bool
  | [] => false
  | c :: rest =>
    if c == '(' then
      let inner := rest.takeWhile (fun d => !(d == ')'))
      match rest.drop inner.length with
      | [')'] => true
      | _ => false
    else false

/-- JS `lastPart.replace(/\([^)]*\)$/, '')`: delete the leftmost (hence only)
trailing parenthesised suffix. -/
def stripParenSuffixAux : List Char → List Char
  | [] => []
  | c :: rest =>
    if parenMatchAt (c :: rest) then []
    else c :: stripParenSuffixAux rest

/-- `extractMethodName` from the analyzer: pull the simple method name out of
a full signature such as `@demo/demo.ts: Index.checkIn()`; on regex failure
fall back to splitting on `.` and stripping a trailing `(...)`. -/
def extractMethodName (methodSignature : String) : String :=
  match mnScan methodSignature.data with
  | some g => ⟨g⟩
  | none =>
    let parts := splitDots methodSignature.data
    let lastPart := parts.getLastD []
    ⟨stripParenSuffixAux lastPart⟩

/-! ### Program representation (foreign data from arkanalyzer) -/

/-- An invoke expression inside a statement (`ArkStaticInvokeExpr` /
`ArkInstanceInvokeExpr`).  `isInvoke` is the `instanceof` test; a failing or
throwing `getMethodSignature().getMethodSubSignature().getMethodName()`
chain is `calleeName = none`; `args` are the `arg.toString()` renderings;
`text` is `expr.toString()`; `loc` is the result of the optional
`getLocation()?.getLineNumber()` chain (`none` when absent or throwing). -/
structure ArkInvoke where
  isInvoke : Bool
  calleeName : Option String
  args : List String
  text : String
  loc : Option Nat
deriving DecidableEq, Repr

/-- A CFG statement: `text` is `stmt.toString()`, `exprs` its expressions,
`loc` the optional `getLocation()?.getLineNumber()` result. -/
structure ArkStmt where
  text : String
  exprs : List ArkInvoke
  loc : Option Nat
deriving DecidableEq, Repr

/-- A method of the scene: `signature` is `method.getSignature().toString()`;
`body` is `none` when `getBody()` is null, otherwise the ordered statement
list of `body.getCfg().getStmts()`. -/
structure ArkMethod where
  signature : String
  body : Option (List ArkStmt)
deriving DecidableEq, Repr

/-- The Capability Catalog (`getSystemCapability` over `API_TO_SYSCAP`):
injected data, a name-to-capability lookup. -/
def Catalog : Type := String → Option String

/-- JS truthiness of `getSystemCapability(name)`: defined and non-empty. -/
def catHit (cat : Catalog) (name : String) : Bool :=
  match cat name with
  | some s => !(s == "")
  | none => false

/-! ### Analyzer data model (`ApiCallInfo`, `AnalysisResult`) -/

/-- `ApiCallInfo` of the analyzer: one Finding. -/
structure ApiCallInfo where
  methodName : String
  requiredSysCap : String
  hasCanIUse : Bool
  hasCorrectCanIUse : Bool
  isTryCatchWrapped : Bool
  foundInMethod : String
  lineNumber : Option Nat
  fileName : Option String
deriving DecidableEq, Repr

/-- The `summary` record of `AnalysisResult`. -/
structure Summary where
  totalApiCalls : Nat
  apisWithCanIUse : Nat
  apisWithCorrectCanIUse : Nat
  apisWithTryCatch : Nat
deriving DecidableEq, Repr

/-- `AnalysisResult`: the Report (findings, recommendation strings, counts). -/
structure AnalysisResult where
  apiCalls : List ApiCallInfo
  recommendations : List String
  summary : Summary
deriving DecidableEq, Repr

/-- The analyzer instance's initial `results` value. -/
def initialResults : AnalysisResult :=
  { apiCalls := []
    recommendations := []
    summary := { totalApiCalls := 0, apisWithCanIUse := 0
                 apisWithCorrectCanIUse := 0, apisWithTryCatch := 0 } }

/-! ### Method Analyzer (`analyzeApiCallsByMethod`) -/

/-- The fixed `excludedMethods` set of built-in names, exactly as listed in
the source (duplicates included; `Set` construction makes them harmless). -/
def excludedMethods : List String :=
  [ "toString", "valueOf", "hasOwnProperty", "isPrototypeOf", "propertyIsEnumerable",
    "toLocaleString", "constructor", "length", "concat", "join", "pop", "push",
    "reverse", "shift", "slice", "sort", "splice", "unshift", "indexOf", "lastIndexOf",
    "every", "some", "forEach", "map", "filter", "reduce", "reduceRight",
    "charAt", "charCodeAt", "fromCharCode", "indexOf", "lastIndexOf", "localeCompare",
    "match", "replace", "search", "slice", "split", "substr", "substring",
    "toLowerCase", "toUpperCase", "trim", "trimLeft", "trimRight",
    "log", "info", "warn", "error", "debug", "trace", "assert", "clear",
    "count", "dir", "dirxml", "group", "groupCollapsed", "groupEnd", "profile",
    "profileEnd", "table", "time", "timeEnd", "timeStamp",
    "parse", "stringify", "keys", "values", "entries", "assign", "create",
    "defineProperty", "defineProperties", "freeze", "seal", "preventExtensions",
    "isExtensible", "isFrozen", "isSealed", "getOwnPropertyDescriptor",
    "getOwnPropertyNames", "getOwnPropertySymbols", "getPrototypeOf", "setPrototypeOf",
    "call", "apply", "bind", "then", "catch", "finally", "resolve", "reject",
    "all", "race", "allSettled", "any" ]

/-- `stmtStr.includes('caughtexception') || stmtStr.includes('caught') ||
stmtStr.includes('throw')`: the exception-handling marker test of pass 1. -/
def stmtHasTryCatch (st : ArkStmt) : Bool :=
  strContains st.text "caughtexception" || strContains st.text "caught" ||
    strContains st.text "throw"

/-- JS `Set.add` on the insertion-ordered list model of a string set. -/
def addCap (s : List String) (x : String) : List String :=
  if s.contains x then s else s ++ [x]

/-- Fold step for the `canIUse` argument loop: add the capability match of
one argument's textual rendering, if any. -/
def capFold (caps : List String) (arg : String) : List String :=
  match extractCapability arg with
  | some c => addCap caps c
  | none => caps

/-- Accumulator of the first statement walk of `analyzeApiCallsByMethod`:
`guarded` is `methodCanIUseCalls`, `apiCalls` is `methodApiCalls`,
`hasTryCatch` is `methodHasTryCatch`. -/
structure Pass1 where
  guarded : List String
  apiCalls : List String
  hasTryCatch : Bool
deriving DecidableEq, Repr

/-- One expression of the first walk: skip non-invokes and unresolvable
callees, skip excluded names, collect `canIUse` capability arguments,
record catalog-recognized API names. -/
def pass1Expr (cat : Catalog) (acc : Pass1) (e : ArkInvoke) : Pass1 :=
  if !e.isInvoke then acc
  else
    match e.calleeName with
    | none => acc
    | some name =>
      if excludedMethods.contains name then acc
      else if name == "canIUse" then
        { acc with guarded := e.args.foldl capFold acc.guarded }
      else if catHit cat name then
        { acc with apiCalls := acc.apiCalls ++ [name] }
      else acc

/-- One statement of the first walk: the try-catch marker check, then the
expression loop. -/
def pass1Stmt (cat : Catalog) (acc : Pass1) (st : ArkStmt) : Pass1 :=
  let acc := if stmtHasTryCatch st then { acc with hasTryCatch := true } else acc
  st.exprs.foldl (pass1Expr cat) acc

/-- The whole first walk of a method body. -/
def pass1Method (cat : Catalog) (m : ArkMethod) : Pass1 :=
  match m.body with
  | none => { guarded := [], apiCalls := [], hasTryCatch := false }
  | some stmts => stmts.foldl (pass1Stmt cat) { guarded := [], apiCalls := [], hasTryCatch := false }

/-- The method's `methodCanIUseCalls` set of guarded capability strings. -/
def methodGuarded (cat : Catalog) (m : ArkMethod) : List String :=
  (pass1Method cat m).guarded

/-- One entry of `apiCallsWithLocation`: an API sighting with best-effort
position. -/
structure ApiLoc where
  api : String
  lineNumber : Option Nat
  fileName : Option String
deriving DecidableEq, Repr

/-- One expression of the second walk (`src/LocationAPIAnalyzer.ts`
variant): `canIUse` skipped first, then excluded names, then catalog
recognition.  In this variant the `lineNumber` local is declared but never
assigned, and `fileName` comes from the `/@([^:]+):/` match on the method
signature. -/
def pass2ExprSrc (cat : Catalog) (sig : String) (acc : List ApiLoc) (e : ArkInvoke) :
    List ApiLoc :=
  if !e.isInvoke then acc
  else
    match e.calleeName with
    | none => acc
    | some name =>
      if name == "canIUse" then acc
      else if excludedMethods.contains name then acc
      else if catHit cat name then
        acc ++ [{ api := name, lineNumber := none, fileName := extractFileName sig }]
      else acc

/-- The second walk of a method body: the ordered list of API sightings
(`apiCallsWithLocation`). -/
def apiCallsWithLocation (cat : Catalog) (m : ArkMethod) : List ApiLoc :=
  match m.body with
  | none => []
  | some stmts =>
    stmts.foldl (fun acc st => st.exprs.foldl (pass2ExprSrc cat m.signature) acc) []

/-- `[...new Set(xs)]`: deduplicate keeping the first occurrence of each
element, in order. -/
def dedupFirstAux (seen : List String) : List String → List String
  | [] => []
  | a :: l =>
    if seen.contains a then dedupFirstAux seen l
    else a :: dedupFirstAux (a :: seen) l

/-- First-occurrence deduplication (JS `new Set` iteration order). -/
def dedupFirst (l : List String) : List String := dedupFirstAux [] l

/-- Build one `ApiCallInfo` for a deduplicated API name: required capability
from the catalog, guard facts from pass 1, location of the first matching
sighting (`apiCallsWithLocation.find`). -/
def mkInfo (cat : Catalog) (m : ArkMethod) (p1 : Pass1) (locs : List ApiLoc)
    (apiName : String) : ApiCallInfo :=
  let requiredSysCap := (cat apiName).getD ""
  let apiLocation := locs.find? (fun item => item.api == apiName)
  { methodName := apiName
    requiredSysCap := requiredSysCap
    hasCanIUse := decide (0 < p1.guarded.length)
    hasCorrectCanIUse := p1.guarded.contains requiredSysCap
    isTryCatchWrapped := p1.hasTryCatch
    foundInMethod := m.signature
    lineNumber := apiLocation.bind (fun item => item.lineNumber)
    fileName := apiLocation.bind (fun item => item.fileName) }

/-- Per-method body of `analyzeApiCallsByMethod`: a method without a body is
skipped; otherwise its sightings are deduplicated by API name and turned
into findings. -/
def analyzeMethod (cat : Catalog) (m : ArkMethod) : List ApiCallInfo :=
  match m.body with
  | none => []
  | some _ =>
    (dedupFirst ((apiCallsWithLocation cat m).map (fun item => item.api))).map
      (mkInfo cat m (pass1Method cat m) (apiCallsWithLocation cat m))

/-- `analyzeApiCallsByMethod` over the whole scene. -/
def analyzeApiCallsByMethod (cat : Catalog) (scene : List ArkMethod) :
    List ApiCallInfo :=
  (scene.map (analyzeMethod cat)).flatten

/-! ### Finding Classifier & Aggregator (`analyze`) -/

/-- Severity grades of the decision table (§ severity classification). -/
inductive Severity where
  | severe
  | advisory
  | compliant
deriving DecidableEq, Repr

/-- The first-match decision chain of `analyze`: no correct guard and no
try-catch is severe; otherwise no correct guard is advisory; otherwise
compliant. -/
def classifySeverity (i : ApiCallInfo) : Severity :=
  if !i.hasCorrectCanIUse && !i.isTryCatchWrapped then .severe
  else if !i.hasCorrectCanIUse then .advisory
  else .compliant

/-- The `severeIssues` bucket of the classification loop. -/
def severeIssues : List ApiCallInfo → List ApiCallInfo
  | [] => []
  | i :: rest =>
    if !i.hasCorrectCanIUse && !i.isTryCatchWrapped then i :: severeIssues rest
    else severeIssues rest

/-- The `missingCanIUse` bucket of the classification loop. -/
def missingCanIUse : List ApiCallInfo → List ApiCallInfo
  | [] => []
  | i :: rest =>
    if !i.hasCorrectCanIUse && !i.isTryCatchWrapped then missingCanIUse rest
    else if !i.hasCorrectCanIUse then i :: missingCanIUse rest
    else missingCanIUse rest

/-- The `goodPractices` bucket of the classification loop. -/
def goodPractices : List ApiCallInfo → List ApiCallInfo
  | [] => []
  | i :: rest =>
    if !i.hasCorrectCanIUse && !i.isTryCatchWrapped then goodPractices rest
    else if !i.hasCorrectCanIUse then goodPractices rest
    else i :: goodPractices rest

/-- JS `apiInfo.fileName || '未知文件'`: `||` treats both `undefined` and the
empty string as falsy. -/
def jsOrStr (o : Option String) (d : String) : String :=
  match o with
  | some s => if s == "" then d else s
  | none => d

/-- The recommendation string pushed for one severe finding. -/
def recSevere (info : ApiCallInfo) : String :=
  "严重警告: " ++ jsOrStr info.fileName "未知文件" ++ "中" ++
    extractMethodName info.foundInMethod ++ "方法的" ++ info.methodName ++
    "()缺少canIUse和try-catch"

/-- The recommendation string pushed for one advisory finding. -/
def recAdvisory (info : ApiCallInfo) : String :=
  "建议: " ++ jsOrStr info.fileName "未知文件" ++ "中" ++
    extractMethodName info.foundInMethod ++ "方法的" ++ info.methodName ++
    "()添加canIUse检查"

/-- All recommendation strings one classification pass pushes, in push
order: the severe loop runs before the advisory loop. -/
def genRecs (infos : List ApiCallInfo) : List String :=
  (severeIssues infos).map recSevere ++ (missingCanIUse infos).map recAdvisory

/-- The classification-and-aggregation tail of `analyze`, acting on the
mutable `this.results` state: an empty finding list returns the state
unchanged (early return); otherwise `apiCalls` is assigned, the
recommendation strings are pushed (appended), and the summary counts are
recomputed. -/
def classifyCore (infos : List ApiCallInfo) (st : AnalysisResult) : AnalysisResult :=
  if infos.length == 0 then st
  else
    { apiCalls := infos
      recommendations := st.recommendations ++ genRecs infos
      summary :=
        { totalApiCalls := (dedupFirst (infos.map (fun i => i.methodName))).length
          apisWithCanIUse := (infos.filter (fun i => i.hasCanIUse)).length
          apisWithCorrectCanIUse := (infos.filter (fun i => i.hasCorrectCanIUse)).length
          apisWithTryCatch := (infos.filter (fun i => i.isTryCatchWrapped)).length } }

/-- Outcome of `buildScene`: either the scene's method list, or the provider
threw while building the program representation. -/
inductive BuildResult where
  | ok (scene : List ArkMethod)
  | err
deriving Repr

/-- `analyze`: build the scene inside `try`; on provider failure the `catch`
arm pushes the single run-level error recommendation `分析异常` and the
(otherwise untouched) state is returned; on success the findings are
classified and aggregated into the state. -/
def analyze (cat : Catalog) (b : BuildResult) (st : AnalysisResult) : AnalysisResult :=
  match b with
  | .err => { st with recommendations := st.recommendations ++ ["分析异常"] }
  | .ok scene => classifyCore (analyzeApiCallsByMethod cat scene) st

/-! ### The variant analyzer with source-based line recovery

The second source file of the repository (same class, unnamed file) differs
only inside the second statement walk: it attempts to recover a line number
for each sighting.  Node's config/path resolution and `fs` reads are
modelled by an abstract `readFile : String → Option String` content lookup
keyed by the extracted file name (`none` = file missing or unreadable). -/

/-- JS falsiness of the `lineNumber` local (`!lineNumber`): unassigned
(`undefined`) or zero. -/
def jsFalsyLine (o : Option Nat) : Bool :=
  match o with
  | none => true
  | some n => n == 0

/-- JS truthiness of the optional `fileName` string. -/
def jsTruthyStr (o : Option String) : Bool :=
  match o with
  | some s => !(s == "")
  | none => false

/-- `line.includes(apiName) && line.includes('(')` with the comment filter
(`//`, `*`) of `findApiLineNumber`'s forward scan. -/
def isCandidateLine (apiName : String) (line : List Char) : Bool :=
  charsContain apiName.data line && charsContain "(".data line &&
    (let t := jsTrim line
     !(startsSeq "//".data t) && !(startsSeq "*".data t))

/-- The method/function boundary heuristic of the backward scan. -/
def isBoundaryLine (t : List Char) : Bool :=
  charsContain "async ".data t || charsContain "function ".data t ||
    (charsContain "(".data t && charsContain ")".data t && charsContain "\x7b".data t)

/-- The backward scan of `findApiLineNumber` from candidate index `i` down
to 0: a line naming the enclosing method returns `i + 1`, crossing a
method boundary breaks (and the code after the loop returns `i + 1`), and
exhausting the scan also falls through to `return i + 1`. -/
def backScan (lines : List (List Char)) (i : Nat) (methodName : String) (j : Nat) : Nat :=
  let prev := jsTrim (lines.getD j [])
  if charsContain methodName.data prev && charsContain "(".data prev then i + 1
  else if decide (j < i) && isBoundaryLine prev then i + 1
  else
    match j with
    | 0 => i + 1
    | j' + 1 => backScan lines i methodName j'

/-- The forward scan of `findApiLineNumber` over the file's lines, carrying
the current 0-based index `i`. -/
def findLineLoop (allLines : List (List Char)) (apiName methodName : String) :
    Nat → List (List Char) → Option Nat
  | _, [] => none
  | i, line :: rest =>
    if isCandidateLine apiName line then some (backScan allLines i methodName i)
    else findLineLoop allLines apiName methodName (i + 1) rest

/-- `findApiLineNumber`: recover a 1-based line number for an API call from
the source file's text; `none` when the file is missing/unreadable (the
`existsSync` guard and the surrounding `catch`) or no candidate line is
found. -/
def findApiLineNumber (fileContent : Option String) (apiName methodName : String) :
    Option Nat :=
  match fileContent with
  | none => none
  | some src =>
    let lines := splitLines src.data
    findLineLoop lines apiName methodName 0 lines

/-- 1-based-index reference form of the forward scan: the position of the
first candidate line. -/
def firstCandidateIdx (apiName : String) : List (List Char) → Option Nat
  | [] => none
  | l :: rest =>
    if isCandidateLine apiName l then some 0
    else (firstCandidateIdx apiName rest).map (· + 1)

/-- The line-number recovery chain of the variant's second walk, for one
recognized sighting: the `/:(\d+):/` match on the expression then statement
text, the provider `getLocation()` of the expression then statement, the
`/@[^:]+:(\d+):/` match on the method signature, and finally the source
scan `findApiLineNumber` — each step attempted only while the current value
is still falsy. -/
def resolveLineP3 (readFile : String → Option String) (sig : String)
    (e : ArkInvoke) (st : ArkStmt) (apiName : String) : Option Nat :=
  let ln1 : Option Nat :=
    match lineColScan e.text.data with
    | some n => some n
    | none => lineColScan st.text.data
  let ln2 := if jsFalsyLine ln1 then
      match e.loc with
      | some n => some n
      | none => ln1
    else ln1
  let ln3 := if jsFalsyLine ln2 then
      match st.loc with
      | some n => some n
      | none => ln2
    else ln2
  let fn := extractFileName sig
  let ln4 := if jsFalsyLine ln3 then
      match sigLineScan sig.data with
      | some n => some n
      | none => ln3
    else ln3
  if jsFalsyLine ln4 && jsTruthyStr fn then
    findApiLineNumber (readFile (fn.getD "")) apiName (extractMethodName sig)
  else ln4

/-- One expression of the variant's second walk: same skip order as the
`src/` variant, but a recognized sighting records the recovered line. -/
def pass2ExprP3 (cat : Catalog) (readFile : String → Option String) (sig : String)
    (st : ArkStmt) (acc : List ApiLoc) (e : ArkInvoke) : List ApiLoc :=
  if !e.isInvoke then acc
  else
    match e.calleeName with
    | none => acc
    | some name =>
      if name == "canIUse" then acc
      else if excludedMethods.contains name then acc
      else if catHit cat name then
        acc ++ [{ api := name, lineNumber := resolveLineP3 readFile sig e st name
                  fileName := extractFileName sig }]
      else acc

/-- The variant's `apiCallsWithLocation` list. -/
def apiCallsWithLocationP3 (cat : Catalog) (readFile : String → Option String)
    (m : ArkMethod) : List ApiLoc :=
  match m.body with
  | none => []
  | some stmts =>
    stmts.foldl (fun acc st => st.exprs.foldl (pass2ExprP3 cat readFile m.signature st) acc) []

/-- Per-method analysis of the variant file: pass 1 is identical to the
`src/` variant; the sightings additionally carry recovered line numbers. -/
def analyzeMethodP3 (cat : Catalog) (readFile : String → Option String)
    (m : ArkMethod) : List ApiCallInfo :=
  match m.body with
  | none => []
  | some _ =>
    (dedupFirst ((apiCallsWithLocationP3 cat readFile m).map (fun item => item.api))).map
      (mkInfo cat m (pass1Method cat m) (apiCallsWithLocationP3 cat readFile m))

/-- Forget a finding's recovered line number (for comparing the two
analyzer variants). -/
def eraseLine (i : ApiCallInfo) : ApiCallInfo :=
  { i with lineNumber := none }

/-! ### Concrete fixtures (used by witnesses and counterexamples) -/

/-- A one-entry catalog recognizing `getCurrentLocation`. -/
def catW : Catalog := fun n =>
  if n == "getCurrentLocation" then some "SystemCapability.Location.Location.Core"
  else none

/-- An invoke expression calling `getCurrentLocation`. -/
def exprCallW : ArkInvoke :=
  { isInvoke := true, calleeName := some "getCurrentLocation", args := []
    text := "temp = instanceinvoke getCurrentLocation()", loc := none }

/-- A statement containing one `getCurrentLocation` call. -/
def stmtCallW : ArkStmt :=
  { text := "temp = instanceinvoke getCurrentLocation()", exprs := [exprCallW], loc := none }

/-- A method that calls `getCurrentLocation` twice, unguarded, unwrapped. -/
def mW : ArkMethod :=
  { signature := "@demo/demo.ts: Index.checkIn()", body := some [stmtCallW, stmtCallW] }

/-- The sighting that both statements of `mW` produce. -/
def locW : ApiLoc :=
  { api := "getCurrentLocation", lineNumber := none, fileName := some "demo/demo.ts" }

/-- An invoke expression calling `canIUse` with the exact required
capability string. -/
def exprGuardW : ArkInvoke :=
  { isInvoke := true, calleeName := some "canIUse"
    args := ["SystemCapability.Location.Location.Core"]
    text := "staticinvoke canIUse(SystemCapability.Location.Location.Core)", loc := none }

/-- A method with an exact-capability guard and one `getCurrentLocation`
call. -/
def mGuardedW : ArkMethod :=
  { signature := "@demo/demo.ts: Index.checkIn()"
    body := some [{ text := "guard", exprs := [exprGuardW], loc := none }, stmtCallW] }

/-- A fallback finding value for `headD`. -/
def infoDefault : ApiCallInfo :=
  { methodName := "", requiredSysCap := "", hasCanIUse := false
    hasCorrectCanIUse := false, isTryCatchWrapped := false, foundInMethod := ""
    lineNumber := none, fileName := none }

/-- A method whose `getBody()` is null. -/
def mNoBodyW : ArkMethod := { signature := "@demo/demo.ts: Index.empty()", body := none }

/-- A method with a body but no API sightings. -/
def mNoSightW : ArkMethod :=
  { signature := "@demo/demo.ts: Index.idle()"
    body := some [{ text := "x = 1", exprs := [], loc := none }] }

/-- A method whose single `canIUse` argument text contains two distinct
capability-pattern matches. -/
def mTwoCapsW : ArkMethod :=
  { signature := "@demo/demo.ts: Index.guards()"
    body := some [{ text := "guard"
                    exprs := [{ isInvoke := true, calleeName := some "canIUse"
                                args := ["SystemCapability.A.B SystemCapability.C.D"]
                                text := "", loc := none }]
                    loc := none }] }

/-- A finding that classifies as severe (used for the rerun counterexample). -/
def infoSevereW : ApiCallInfo :=
  { methodName := "getCurrentLocation"
    requiredSysCap := "SystemCapability.Location.Location.Core"
    hasCanIUse := false, hasCorrectCanIUse := false, isTryCatchWrapped := false
    foundInMethod := "@demo/demo.ts: Index.checkIn()", lineNumber := none
    fileName := some "demo/demo.ts" }

/-- A finding that classifies as compliant (generates no recommendation). -/
def infoCompliantW : ApiCallInfo :=
  { methodName := "getCurrentLocation"
    requiredSysCap := "SystemCapability.Location.Location.Core"
    hasCanIUse := true, hasCorrectCanIUse := true, isTryCatchWrapped := true
    foundInMethod := "@demo/demo.ts: Index.checkIn()", lineNumber := none
    fileName := some "demo/demo.ts" }

/-! ### Helper lemmas -/

lemma contains_true_iff (l : List String) (a : String) : l.contains a = true ↔ a ∈ l := by
  simp

lemma mem_addCap {s : List String} {x y : String} :
    x ∈ addCap s y ↔ x ∈ s ∨ x = y := by
  unfold addCap
  by_cases h : s.contains y = true
  · rw [if_pos h]
    have hy := (contains_true_iff s y).1 h
    constructor
    · exact Or.inl
    · rintro (hx | rfl)
      · exact hx
      · exact hy
  · rw [if_neg h]
    simp [List.mem_append]

lemma mem_foldl_capFold (args : List String) (caps : List String) (x : String) :
    x ∈ args.foldl capFold caps ↔ x ∈ caps ∨ ∃ a ∈ args, extractCapability a = some x := by
  induction args generalizing caps with
  | nil => simp
  | cons a t ih =>
    simp only [List.foldl_cons]
    rw [ih]
    unfold capFold
    cases h : extractCapability a with
    | none => simp [h]
    | some c =>
      simp only [mem_addCap, h, List.mem_cons]
      constructor
      · rintro ((hx | rfl) | ⟨b, hb, hbx⟩)
        · exact Or.inl hx
        · exact Or.inr ⟨a, Or.inl rfl, h⟩
        · exact Or.inr ⟨b, Or.inr hb, hbx⟩
      · rintro (hx | ⟨b, (rfl | hb), hbx⟩)
        · exact Or.inl (Or.inl hx)
        · rw [h] at hbx
          exact Or.inl (Or.inr (Option.some_injective _ hbx).symm)
        · exact Or.inr ⟨b, hb, hbx⟩

/-- The capability `x` is contributed by the invoke expression `e` in pass 1. -/
def guardFromInvoke (e : ArkInvoke) (x : String) : Prop :=
  e.isInvoke = true ∧ e.calleeName = some "canIUse" ∧
    ∃ a ∈ e.args, extractCapability a = some x

lemma canIUse_not_excluded : excludedMethods.contains "canIUse" = false := by decide

lemma pass1Expr_guarded_mem (cat : Catalog) (acc : Pass1) (e : ArkInvoke) (x : String) :
    x ∈ (pass1Expr cat acc e).guarded ↔ x ∈ acc.guarded ∨ guardFromInvoke e x := by
  unfold pass1Expr guardFromInvoke
  cases hi : e.isInvoke with
  | false => simp [hi]
  | true =>
    simp only [hi, Bool.not_true, Bool.false_eq_true, if_false]
    cases hc : e.calleeName with
    | none => simp
    | some name =>
      dsimp only
      by_cases hex : excludedMethods.contains name = true
      · rw [if_pos hex]
        simp only [Option.some.injEq, true_and]
        constructor
        · exact Or.inl
        · rintro (hx | ⟨rfl, _⟩)
          · exact hx
          · rw [canIUse_not_excluded] at hex
            exact absurd hex (by simp)
      · rw [if_neg hex]
        by_cases hcn : (name == "canIUse") = true
        · rw [if_pos hcn]
          have : name = "canIUse" := by simpa using hcn
          subst this
          simp [mem_foldl_capFold]
        · rw [if_neg hcn]
          have hne : ¬ name = "canIUse" := by simpa using hcn
          by_cases hhit : catHit cat name = true
          · rw [if_pos hhit]
            simp [hne]
          · rw [if_neg hhit]
            simp [hne]

lemma foldl_pass1Expr_guarded_mem (cat : Catalog) (es : List ArkInvoke) (acc : Pass1)
    (x : String) :
    x ∈ (es.foldl (pass1Expr cat) acc).guarded ↔
      x ∈ acc.guarded ∨ ∃ e ∈ es, guardFromInvoke e x := by
  induction es generalizing acc with
  | nil => simp
  | cons e t ih =>
    simp only [List.foldl_cons]
    rw [ih, pass1Expr_guarded_mem]
    simp only [List.mem_cons]
    constructor
    · rintro ((hx | hg) | ⟨f, hf, hgf⟩)
      · exact Or.inl hx
      · exact Or.inr ⟨e, Or.inl rfl, hg⟩
      · exact Or.inr ⟨f, Or.inr hf, hgf⟩
    · rintro (hx | ⟨f, (rfl | hf), hgf⟩)
      · exact Or.inl (Or.inl hx)
      · exact Or.inl (Or.inr hgf)
      · exact Or.inr ⟨f, hf, hgf⟩

lemma pass1Stmt_guarded_mem (cat : Catalog) (acc : Pass1) (st : ArkStmt) (x : String) :
    x ∈ (pass1Stmt cat acc st).guarded ↔
      x ∈ acc.guarded ∨ ∃ e ∈ st.exprs, guardFromInvoke e x := by
  unfold pass1Stmt
  by_cases h : stmtHasTryCatch st = true <;>
    simp [h, foldl_pass1Expr_guarded_mem]

lemma foldl_pass1Stmt_guarded_mem (cat : Catalog) (sts : List ArkStmt) (acc : Pass1)
    (x : String) :
    x ∈ (sts.foldl (pass1Stmt cat) acc).guarded ↔
      x ∈ acc.guarded ∨ ∃ st ∈ sts, ∃ e ∈ st.exprs, guardFromInvoke e x := by
  induction sts generalizing acc with
  | nil => simp
  | cons st t ih =>
    simp only [List.foldl_cons]
    rw [ih, pass1Stmt_guarded_mem]
    simp only [List.mem_cons]
    constructor
    · rintro ((hx | hg) | ⟨s, hs, hgs⟩)
      · exact Or.inl hx
      · exact Or.inr ⟨st, Or.inl rfl, hg⟩
      · exact Or.inr ⟨s, Or.inr hs, hgs⟩
    · rintro (hx | ⟨s, (rfl | hs), hgs⟩)
      · exact Or.inl (Or.inl hx)
      · exact Or.inl (Or.inr hgs)
      · exact Or.inr ⟨s, hs, hgs⟩

lemma dedupFirstAux_countP (a : String) (l : List String) :
    ∀ seen : List String,
      (dedupFirstAux seen l).countP (fun x => x == a) =
        if a ∈ l ∧ a ∉ seen then 1 else 0 := by
  induction l with
  | nil => intro seen; simp [dedupFirstAux]
  | cons b t ih =>
    intro seen
    unfold dedupFirstAux
    by_cases hb : seen.contains b = true
    · rw [if_pos hb, ih seen]
      have hbm : b ∈ seen := (contains_true_iff seen b).1 hb
      by_cases hab : a = b
      · subst hab
        simp [hbm]
      · simp [hab]
    · rw [if_neg hb, List.countP_cons, ih (b :: seen)]
      have hbm : b ∉ seen := fun hmem => hb ((contains_true_iff seen b).2 hmem)
      by_cases hab : a = b
      · subst hab
        simp [hbm]
      · have hba : (b == a) = false := by
          simp only [beq_eq_false_iff_ne, ne_eq]
          exact fun h => hab h.symm
        by_cases hat : a ∈ t <;> by_cases has : a ∈ seen <;>
          simp [hba, List.mem_cons, hab, hat, has]

lemma dedupFirst_countP (a : String) (l : List String) :
    (dedupFirst l).countP (fun x => x == a) = if a ∈ l then 1 else 0 := by
  rw [dedupFirst, dedupFirstAux_countP]
  simp

lemma find?_append_first {α : Type _} (p : α → Bool) (l1 l2 : List α) (x : α)
    (h1 : ∀ y ∈ l1, p y = false) (hx : p x = true) :
    List.find? p (l1 ++ x :: l2) = some x := by
  induction l1 with
  | nil =>
    simp only [List.nil_append]
    rw [List.find?_cons_of_pos _ hx]
  | cons b t ih =>
    have hb := h1 b (by simp)
    rw [List.cons_append, List.find?_cons_of_neg _ (by simp [hb])]
    exact ih fun y hy => h1 y (by simp [hy])

lemma classifySeverity_severe_iff (i : ApiCallInfo) :
    classifySeverity i = .severe ↔
      i.hasCorrectCanIUse = false ∧ i.isTryCatchWrapped = false := by
  unfold classifySeverity
  cases hc : i.hasCorrectCanIUse <;> cases ht : i.isTryCatchWrapped <;> simp

lemma classifySeverity_advisory_iff (i : ApiCallInfo) :
    classifySeverity i = .advisory ↔
      i.hasCorrectCanIUse = false ∧ i.isTryCatchWrapped = true := by
  unfold classifySeverity
  cases hc : i.hasCorrectCanIUse <;> cases ht : i.isTryCatchWrapped <;> simp

lemma classifySeverity_compliant_iff (i : ApiCallInfo) :
    classifySeverity i = .compliant ↔ i.hasCorrectCanIUse = true := by
  unfold classifySeverity
  cases hc : i.hasCorrectCanIUse <;> cases ht : i.isTryCatchWrapped <;> simp

lemma severeIssues_eq_filter (infos : List ApiCallInfo) :
    severeIssues infos = infos.filter (fun i => decide (classifySeverity i = .severe)) := by
  induction infos with
  | nil => rfl
  | cons i t ih =>
    unfold severeIssues
    rw [List.filter_cons, ih]
    by_cases h : (!i.hasCorrectCanIUse && !i.isTryCatchWrapped) = true
    · have : classifySeverity i = .severe := by
        rw [classifySeverity_severe_iff]
        revert h
        cases i.hasCorrectCanIUse <;> cases i.isTryCatchWrapped <;> simp
      simp [h, this]
    · have : ¬ classifySeverity i = .severe := by
        rw [classifySeverity_severe_iff]
        revert h
        cases i.hasCorrectCanIUse <;> cases i.isTryCatchWrapped <;> simp
      simp [h, this]

lemma missingCanIUse_eq_filter (infos : List ApiCallInfo) :
    missingCanIUse infos = infos.filter (fun i => decide (classifySeverity i = .advisory)) := by
  induction infos with
  | nil => rfl
  | cons i t ih =>
    unfold missingCanIUse
    rw [List.filter_cons, ih]
    by_cases hc : i.hasCorrectCanIUse = true <;> by_cases ht : i.isTryCatchWrapped = true
    all_goals
      have hs := classifySeverity_advisory_iff i
      simp [hc, ht] at hs ⊢
      simp [hs]

lemma goodPractices_eq_filter (infos : List ApiCallInfo) :
    goodPractices infos = infos.filter (fun i => decide (classifySeverity i = .compliant)) := by
  induction infos with
  | nil => rfl
  | cons i t ih =>
    unfold goodPractices
    rw [List.filter_cons, ih]
    by_cases hc : i.hasCorrectCanIUse = true <;> by_cases ht : i.isTryCatchWrapped = true
    all_goals
      have hs := classifySeverity_compliant_iff i
      simp [hc, ht] at hs ⊢
      simp [hs]

lemma analyzeMethod_body_none {cat : Catalog} {m : ArkMethod} (h : m.body = none) :
    analyzeMethod cat m = [] := by
  unfold analyzeMethod
  rw [h]

lemma apiCallsWithLocation_body_none {cat : Catalog} {m : ArkMethod} (h : m.body = none) :
    apiCallsWithLocation cat m = [] := by
  unfold apiCallsWithLocation
  rw [h]

lemma analyzeMethod_body_some {cat : Catalog} {m : ArkMethod} {sts : List ArkStmt}
    (h : m.body = some sts) :
    analyzeMethod cat m =
      (dedupFirst ((apiCallsWithLocation cat m).map (fun item => item.api))).map
        (mkInfo cat m (pass1Method cat m) (apiCallsWithLocation cat m)) := by
  unfold analyzeMethod
  rw [h]

lemma mkInfo_methodName (cat : Catalog) (m : ArkMethod) (p1 : Pass1) (locs : List ApiLoc)
    (b : String) : (mkInfo cat m p1 locs b).methodName = b := rfl

lemma mkInfo_requiredSysCap (cat : Catalog) (m : ArkMethod) (p1 : Pass1)
    (locs : List ApiLoc) (b : String) :
    (mkInfo cat m p1 locs b).requiredSysCap = (cat b).getD "" := rfl

lemma mkInfo_hasCorrect (cat : Catalog) (m : ArkMethod) (p1 : Pass1) (locs : List ApiLoc)
    (b : String) :
    (mkInfo cat m p1 locs b).hasCorrectCanIUse = p1.guarded.contains ((cat b).getD "") := rfl

lemma mkInfo_hasCanIUse (cat : Catalog) (m : ArkMethod) (p1 : Pass1) (locs : List ApiLoc)
    (b : String) :
    (mkInfo cat m p1 locs b).hasCanIUse = decide (0 < p1.guarded.length) := rfl

lemma mem_analyzeMethod {cat : Catalog} {m : ArkMethod} {i : ApiCallInfo}
    (h : i ∈ analyzeMethod cat m) :
    ∃ b, b ∈ dedupFirst ((apiCallsWithLocation cat m).map (fun item => item.api)) ∧
      i = mkInfo cat m (pass1Method cat m) (apiCallsWithLocation cat m) b := by
  cases hb : m.body with
  | none =>
    rw [analyzeMethod_body_none hb] at h
    exact absurd h (List.not_mem_nil i)
  | some sts =>
    rw [analyzeMethod_body_some hb] at h
    obtain ⟨b, hbmem, rfl⟩ := List.mem_map.1 h
    exact ⟨b, hbmem, rfl⟩

lemma length_pos_of_contains {l : List String} {a : String} (h : l.contains a = true) :
    0 < l.length := by
  cases l with
  | nil => simp at h
  | cons => simp

lemma analyzeMethod_correct_imp_can {cat : Catalog} {m : ArkMethod} {i : ApiCallInfo}
    (h : i ∈ analyzeMethod cat m) (hc : i.hasCorrectCanIUse = true) :
    i.hasCanIUse = true := by
  obtain ⟨b, _, rfl⟩ := mem_analyzeMethod h
  rw [mkInfo_hasCorrect] at hc
  rw [mkInfo_hasCanIUse]
  simpa using length_pos_of_contains hc

lemma pass2ExprSrc_not_excluded {cat : Catalog} {sig : String} {acc : List ApiLoc}
    {e : ArkInvoke}
    (hacc : ∀ l ∈ acc, excludedMethods.contains l.api = false) :
    ∀ l ∈ pass2ExprSrc cat sig acc e, excludedMethods.contains l.api = false := by
  intro l hl
  unfold pass2ExprSrc at hl
  by_cases hi : e.isInvoke = true
  · simp only [hi, Bool.not_true, Bool.false_eq_true, if_false] at hl
    cases hc : e.calleeName with
    | none => rw [hc] at hl; exact hacc l hl
    | some name =>
      rw [hc] at hl
      dsimp only at hl
      by_cases h1 : (name == "canIUse") = true
      · rw [if_pos h1] at hl; exact hacc l hl
      · rw [if_neg h1] at hl
        by_cases h2 : excludedMethods.contains name = true
        · rw [if_pos h2] at hl; exact hacc l hl
        · rw [if_neg h2] at hl
          by_cases h3 : catHit cat name = true
          · rw [if_pos h3] at hl
            rcases List.mem_append.1 hl with hmem | hmem
            · exact hacc l hmem
            · have : l = { api := name, lineNumber := none, fileName := extractFileName sig } := by
                simpa using hmem
              subst this
              simpa using h2
          · rw [if_neg h3] at hl; exact hacc l hl
  · simp only [hi] at hl
    simp at hl
    exact hacc l hl

lemma foldl_pass2ExprSrc_not_excluded {cat : Catalog} {sig : String}
    (es : List ArkInvoke) (acc : List ApiLoc)
    (hacc : ∀ l ∈ acc, excludedMethods.contains l.api = false) :
    ∀ l ∈ es.foldl (pass2ExprSrc cat sig) acc, excludedMethods.contains l.api = false := by
  induction es generalizing acc with
  | nil => exact hacc
  | cons e t ih =>
    simp only [List.foldl_cons]
    exact ih _ (@pass2ExprSrc_not_excluded cat sig acc e hacc)

lemma apiCallsWithLocation_not_excluded (cat : Catalog) (m : ArkMethod) :
    ∀ l ∈ apiCallsWithLocation cat m, excludedMethods.contains l.api = false := by
  unfold apiCallsWithLocation
  cases hb : m.body with
  | none => simp
  | some sts =>
    clear hb
    have : ∀ (acc : List ApiLoc),
        (∀ l ∈ acc, excludedMethods.contains l.api = false) →
        ∀ l ∈ sts.foldl (fun acc st => st.exprs.foldl (pass2ExprSrc cat m.signature) acc) acc,
          excludedMethods.contains l.api = false := by
      induction sts with
      | nil => exact fun acc hacc => hacc
      | cons st t ih =>
        intro acc hacc
        simp only [List.foldl_cons]
        exact ih _ (@foldl_pass2ExprSrc_not_excluded cat m.signature st.exprs acc hacc)
    exact this [] (by simp)

/-- The location-independent part of a sighting: API name and file name. -/
def projLoc (l : ApiLoc) : String × Option String := (l.api, l.fileName)

lemma pass2ExprP3_proj_eq (cat : Catalog) (rf : String → Option String) (sig : String)
    (st : ArkStmt) (e : ArkInvoke) {acc1 acc2 : List ApiLoc}
    (h : acc1.map projLoc = acc2.map projLoc) :
    (pass2ExprP3 cat rf sig st acc1 e).map projLoc
      = (pass2ExprSrc cat sig acc2 e).map projLoc := by
  unfold pass2ExprP3 pass2ExprSrc
  by_cases hi : e.isInvoke = true
  · simp only [hi, Bool.not_true, Bool.false_eq_true, if_false]
    cases hc : e.calleeName with
    | none => exact h
    | some name =>
      dsimp only
      by_cases h1 : (name == "canIUse") = true
      · simp only [h1, if_true]; exact h
      · simp only [h1, Bool.false_eq_true, if_false]
        by_cases h2 : excludedMethods.contains name = true
        · simp only [h2, if_true]; exact h
        · simp only [h2, Bool.false_eq_true, if_false]
          by_cases h3 : catHit cat name = true
          · simp only [h3, if_true, List.map_append, h, projLoc, List.map_cons, List.map_nil]
          · simp only [h3, Bool.false_eq_true, if_false]; exact h
  · have : e.isInvoke = false := by simpa using hi
    simp only [this, Bool.not_false, if_true]
    exact h

lemma pass2_stmts_proj_eq (cat : Catalog) (rf : String → Option String) (sig : String)
    (sts : List ArkStmt) :
    ∀ {acc1 acc2 : List ApiLoc}, acc1.map projLoc = acc2.map projLoc →
      (sts.foldl (fun acc st => st.exprs.foldl (pass2ExprP3 cat rf sig st) acc) acc1).map projLoc
        = (sts.foldl (fun acc st => st.exprs.foldl (pass2ExprSrc cat sig) acc) acc2).map projLoc := by
  induction sts with
  | nil => exact fun h => h
  | cons st t ih =>
    intro acc1 acc2 h
    simp only [List.foldl_cons]
    apply ih
    clear ih
    induction st.exprs generalizing acc1 acc2 with
    | nil => exact h
    | cons e es ihe =>
      simp only [List.foldl_cons]
      exact ihe (pass2ExprP3_proj_eq cat rf sig st e h)

lemma locsP3_proj_eq (cat : Catalog) (rf : String → Option String) (m : ArkMethod) :
    (apiCallsWithLocationP3 cat rf m).map projLoc
      = (apiCallsWithLocation cat m).map projLoc := by
  unfold apiCallsWithLocationP3 apiCallsWithLocation
  cases hb : m.body with
  | none => rfl
  | some sts => exact pass2_stmts_proj_eq cat rf m.signature sts rfl

lemma map_api_eq_of_proj {l1 l2 : List ApiLoc}
    (h : l1.map projLoc = l2.map projLoc) :
    l1.map (fun item => item.api) = l2.map (fun item => item.api) := by
  have h2 := congrArg (List.map Prod.fst) h
  simpa [List.map_map, Function.comp, projLoc] using h2

lemma find?_proj_eq {l1 l2 : List ApiLoc}
    (h : l1.map projLoc = l2.map projLoc) (a : String) :
    (l1.find? (fun item => item.api == a)).map projLoc
      = (l2.find? (fun item => item.api == a)).map projLoc := by
  induction l1 generalizing l2 with
  | nil =>
    cases l2 with
    | nil => rfl
    | cons y s => simp at h
  | cons x t ih =>
    cases l2 with
    | nil => simp at h
    | cons y s =>
      simp only [List.map_cons, List.cons.injEq] at h
      obtain ⟨hxy, hts⟩ := h
      have hapi : x.api = y.api := by
        have := congrArg Prod.fst hxy
        simpa [projLoc] using this
      by_cases hx : (x.api == a) = true
      · have hy : (y.api == a) = true := by rw [← hapi]; exact hx
        simp only [List.find?, hx, hy]
        simpa using hxy
      · have hx' : (x.api == a) = false := by simpa using hx
        have hy : (y.api == a) = false := by rw [← hapi]; exact hx'
        simp only [List.find?, hx', hy]
        exact ih hts

lemma bind_fileName_of_proj {o1 o2 : Option ApiLoc}
    (h : o1.map projLoc = o2.map projLoc) :
    o1.bind (fun item => item.fileName) = o2.bind (fun item => item.fileName) := by
  cases o1 <;> cases o2 <;> simp_all [projLoc, Prod.ext_iff]

lemma backScan_eq (lines : List (List Char)) (i : Nat) (mn : String) :
    ∀ j, backScan lines i mn j = i + 1 := by
  intro j
  induction j with
  | zero => simp [backScan]
  | succ j' ih => simp [backScan, ih]

lemma findLineLoop_eq (all : List (List Char)) (a mn : String) :
    ∀ (rest : List (List Char)) (k : Nat),
      findLineLoop all a mn k rest = (firstCandidateIdx a rest).map (fun x => x + k + 1) := by
  intro rest
  induction rest with
  | nil => intro k; rfl
  | cons l t ih =>
    intro k
    unfold findLineLoop firstCandidateIdx
    by_cases h : isCandidateLine a l = true
    · simp [h, backScan_eq]
    · simp only [h, Bool.false_eq_true, if_false, ih (k + 1), Option.map_map]
      cases firstCandidateIdx a t with
      | none => rfl
      | some x =>
        simp [Function.comp]
        omega

lemma mem_of_mem_dedupFirstAux {l : List String} :
    ∀ {seen : List String} {b : String}, b ∈ dedupFirstAux seen l → b ∈ l := by
  induction l with
  | nil => intro seen b h; simp [dedupFirstAux] at h
  | cons a t ih =>
    intro seen b h
    unfold dedupFirstAux at h
    by_cases hc : seen.contains a = true
    · rw [if_pos hc] at h
      exact List.mem_cons_of_mem _ (ih h)
    · rw [if_neg hc] at h
      rcases List.mem_cons.1 h with rfl | h
      · exact List.mem_cons_self _ _
      · exact List.mem_cons_of_mem _ (ih h)

lemma mem_of_mem_dedupFirst {l : List String} {b : String} (h : b ∈ dedupFirst l) :
    b ∈ l :=
  mem_of_mem_dedupFirstAux h

lemma mem_analyzeApiCallsByMethod {cat : Catalog} {scene : List ArkMethod}
    {i : ApiCallInfo} (h : i ∈ analyzeApiCallsByMethod cat scene) :
    ∃ m ∈ scene, i ∈ analyzeMethod cat m := by
  unfold analyzeApiCallsByMethod at h
  obtain ⟨l, hl, hil⟩ := List.mem_flatten.1 h
  obtain ⟨m, hm, rfl⟩ := List.mem_map.1 hl
  exact ⟨m, hm, hil⟩

lemma analyzeMethodP3_body_some {cat : Catalog} {rf : String → Option String}
    {m : ArkMethod} {sts : List ArkStmt} (h : m.body = some sts) :
    analyzeMethodP3 cat rf m =
      (dedupFirst ((apiCallsWithLocationP3 cat rf m).map (fun item => item.api))).map
        (mkInfo cat m (pass1Method cat m) (apiCallsWithLocationP3 cat rf m)) := by
  unfold analyzeMethodP3
  rw [h]

lemma analyzeMethodP3_body_none {cat : Catalog} {rf : String → Option String}
    {m : ArkMethod} (h : m.body = none) : analyzeMethodP3 cat rf m = [] := by
  unfold analyzeMethodP3
  rw [h]

lemma eraseLine_mkInfo_eq {cat : Catalog} {m : ArkMethod} {p1 : Pass1}
    {locs1 locs2 : List ApiLoc} (h : locs1.map projLoc = locs2.map projLoc)
    (b : String) :
    eraseLine (mkInfo cat m p1 locs1 b) = eraseLine (mkInfo cat m p1 locs2 b) := by
  have hf := bind_fileName_of_proj (find?_proj_eq h b)
  unfold eraseLine mkInfo
  dsimp only
  rw [hf]

lemma analyzeMethodP3_eraseLine (cat : Catalog) (rf : String → Option String)
    (m : ArkMethod) :
    (analyzeMethodP3 cat rf m).map eraseLine = (analyzeMethod cat m).map eraseLine := by
  cases hb : m.body with
  | none => rw [analyzeMethodP3_body_none hb, analyzeMethod_body_none hb]
  | some sts =>
    rw [analyzeMethodP3_body_some hb, analyzeMethod_body_some hb]
    have hproj := locsP3_proj_eq cat rf m
    rw [map_api_eq_of_proj hproj, List.map_map, List.map_map]
    apply List.map_congr_left
    intro b _
    simp only [Function.comp_apply]
    exact eraseLine_mkInfo_eq hproj b

/-! ### Claim theorems -/

/-- C1: severity is assigned by the fixed first-match decision table: a
finding is SEVERE exactly when it has neither the correct capability guard
nor exception wrapping, ADVISORY exactly when it lacks the correct guard
but has exception wrapping, and COMPLIANT exactly when it has the correct
guard, regardless of wrapping; moreover the classification loop's three
buckets contain exactly the findings of each severity. -/
theorem c1_severity_decision_table :
    (∀ i : ApiCallInfo,
      (classifySeverity i = .severe ↔
        i.hasCorrectCanIUse = false ∧ i.isTryCatchWrapped = false) ∧
      (classifySeverity i = .advisory ↔
        i.hasCorrectCanIUse = false ∧ i.isTryCatchWrapped = true) ∧
      (classifySeverity i = .compliant ↔ i.hasCorrectCanIUse = true)) ∧
    (∀ infos : List ApiCallInfo,
      severeIssues infos = infos.filter (fun i => decide (classifySeverity i = .severe)) ∧
      missingCanIUse infos = infos.filter (fun i => decide (classifySeverity i = .advisory)) ∧
      goodPractices infos = infos.filter (fun i => decide (classifySeverity i = .compliant))) :=
  ⟨fun i => ⟨classifySeverity_severe_iff i, classifySeverity_advisory_iff i,
      classifySeverity_compliant_iff i⟩,
   fun infos => ⟨severeIssues_eq_filter infos, missingCanIUse_eq_filter infos,
      goodPractices_eq_filter infos⟩⟩

/-- C2: for every method and every catalog API name sighted in it, exactly
one Finding is produced for the (method, API) pair — even when the API is
called several times — and the Finding carries the line number and file
name of the first sighting of that API in statement order (here: the first
element of `apiCallsWithLocation` with that API name). -/
theorem c2_one_finding_per_api (cat : Catalog) (m : ArkMethod) (a : String)
    (l1 l2 : List ApiLoc) (loc : ApiLoc)
    (hsplit : apiCallsWithLocation cat m = l1 ++ loc :: l2)
    (hfirst : ∀ x ∈ l1, x.api ≠ a) (hloc : loc.api = a) :
    (analyzeMethod cat m).countP (fun i => i.methodName == a) = 1 ∧
      ∀ i ∈ analyzeMethod cat m, i.methodName = a →
        i.lineNumber = loc.lineNumber ∧ i.fileName = loc.fileName := by
  have hamem : a ∈ (apiCallsWithLocation cat m).map (fun item => item.api) := by
    rw [hsplit]
    exact List.mem_map.2 ⟨loc, by simp, hloc⟩
  have hfind : (apiCallsWithLocation cat m).find? (fun item => item.api == a) = some loc := by
    rw [hsplit]
    apply find?_append_first
    · intro y hy
      exact beq_eq_false_iff_ne.2 (hfirst y hy)
    · exact beq_iff_eq.2 hloc
  cases hb : m.body with
  | none =>
    exfalso
    rw [apiCallsWithLocation_body_none hb] at hsplit
    cases l1 <;> simp at hsplit
  | some sts =>
    rw [analyzeMethod_body_some hb]
    constructor
    · rw [List.countP_map]
      have hcongr :
          List.countP
            ((fun i => i.methodName == a) ∘
              mkInfo cat m (pass1Method cat m) (apiCallsWithLocation cat m))
            (dedupFirst ((apiCallsWithLocation cat m).map fun item => item.api)) =
          List.countP (fun b => b == a)
            (dedupFirst ((apiCallsWithLocation cat m).map fun item => item.api)) := by
        apply List.countP_congr
        intro b _
        rfl
      rw [hcongr, dedupFirst_countP, if_pos hamem]
    · intro i hi hname
      obtain ⟨b, hbmem, rfl⟩ := List.mem_map.1 hi
      rw [mkInfo_methodName] at hname
      subst hname
      unfold mkInfo
      dsimp only
      rw [hfind]
      exact ⟨rfl, rfl⟩

/-- C2 witness: in a method calling `getCurrentLocation` twice, exactly one
finding is produced and it carries the first sighting's location. -/
theorem c2_one_finding_per_api_witness :
    (analyzeMethod catW mW).countP (fun i => i.methodName == "getCurrentLocation") = 1 ∧
      ∀ i ∈ analyzeMethod catW mW, i.methodName = "getCurrentLocation" →
        i.lineNumber = locW.lineNumber ∧ i.fileName = locW.fileName :=
  c2_one_finding_per_api catW mW "getCurrentLocation" [] [locW] locW (by decide)
    (by decide) (by decide)

/-- C3: guard matching is exact string equality — a finding records
`hasCorrectCanIUse` exactly when some guarded capability string of the
method is literally equal to the finding's required capability, and it is
COMPLIANT exactly under the same condition; any guard string that is not
identical (prefix, superstring, ...) never yields `hasCorrectCanIUse`. -/
theorem c3_exact_capability_match (cat : Catalog) (m : ArkMethod) (info : ApiCallInfo)
    (h : info ∈ analyzeMethod cat m) :
    (info.hasCorrectCanIUse = true ↔
      ∃ g ∈ methodGuarded cat m, g = info.requiredSysCap) ∧
    (classifySeverity info = .compliant ↔
      ∃ g ∈ methodGuarded cat m, g = info.requiredSysCap) := by
  obtain ⟨b, hbmem, rfl⟩ := mem_analyzeMethod h
  have hmain :
      (mkInfo cat m (pass1Method cat m) (apiCallsWithLocation cat m) b).hasCorrectCanIUse = true ↔
        ∃ g ∈ methodGuarded cat m,
          g = (mkInfo cat m (pass1Method cat m) (apiCallsWithLocation cat m) b).requiredSysCap := by
    rw [mkInfo_hasCorrect, mkInfo_requiredSysCap]
    unfold methodGuarded
    constructor
    · intro hc
      exact ⟨_, (contains_true_iff _ _).1 hc, rfl⟩
    · rintro ⟨g, hg, rfl⟩
      exact (contains_true_iff _ _).2 hg
  exact ⟨hmain, by rw [classifySeverity_compliant_iff]; exact hmain⟩

/-- C3 witness: applied to the finding of a method guarded with exactly the
required capability string. -/
theorem c3_exact_capability_match_witness :
    (((analyzeMethod catW mGuardedW).headD infoDefault).hasCorrectCanIUse = true ↔
      ∃ g ∈ methodGuarded catW mGuardedW,
        g = ((analyzeMethod catW mGuardedW).headD infoDefault).requiredSysCap) ∧
    (classifySeverity ((analyzeMethod catW mGuardedW).headD infoDefault) = .compliant ↔
      ∃ g ∈ methodGuarded catW mGuardedW,
        g = ((analyzeMethod catW mGuardedW).headD infoDefault).requiredSysCap) :=
  c3_exact_capability_match catW mGuardedW _ (by decide)

/-- C4 counterexample: the claim "every capability-pattern match of every
argument is added" fails — `matchBoth`'s single argument contains two
capability-pattern matches, yet only the first is added to the guarded
set: the second match `SystemCapability.C.D` occurs in the argument text
and matches the pattern, but is not in the guarded set. -/
theorem c4_counterexample :
    methodGuarded catW mTwoCapsW = ["SystemCapability.A.B"] ∧
    charsContain "SystemCapability.C.D".data
      "SystemCapability.A.B SystemCapability.C.D".data = true ∧
    capMatchAt "SystemCapability.C.D".data = some "SystemCapability.C.D".data ∧
    "SystemCapability.C.D" ∉ methodGuarded catW mTwoCapsW := by
  refine ⟨by decide, by decide, by decide, by decide⟩

/-- C4 amended: for every `canIUse` guard call, only the *first* (leftmost,
maximal) capability-pattern match of each argument's textual rendering is
added to the method's guarded set — a string is guarded iff it is the
first match of some argument of some `canIUse` invoke in the method. -/
theorem c4_first_capability_match (cat : Catalog) (m : ArkMethod) (x : String) :
    x ∈ methodGuarded cat m ↔
      ∃ st ∈ m.body.getD [], ∃ e ∈ st.exprs,
        e.isInvoke = true ∧ e.calleeName = some "canIUse" ∧
        ∃ a ∈ e.args, extractCapability a = some x := by
  unfold methodGuarded pass1Method
  cases hb : m.body with
  | none => simp [hb]
  | some sts =>
    dsimp only
    rw [foldl_pass1Stmt_guarded_mem]
    simp [guardFromInvoke]

/-- C5 counterexample: running the classification twice on the same input is
*not* idempotent — a severe finding's recommendation string is pushed
again by the second run, so the Report differs. -/
theorem c5_rerun_counterexample :
    classifyCore [infoSevereW] (classifyCore [infoSevereW] initialResults) ≠
      classifyCore [infoSevereW] initialResults := by decide

/-- C5 amended: re-running the classification on the same per-method facts
leaves the findings list and the summary counts identical, but appends the
generated recommendation strings again; the Report is identical exactly
when the run generates no recommendations (no severe or advisory
findings). -/
theorem c5_rerun_report (infos : List ApiCallInfo) (st : AnalysisResult) :
    (classifyCore infos (classifyCore infos st)).apiCalls =
      (classifyCore infos st).apiCalls ∧
    (classifyCore infos (classifyCore infos st)).summary =
      (classifyCore infos st).summary ∧
    (classifyCore infos (classifyCore infos st)).recommendations =
      (classifyCore infos st).recommendations ++ genRecs infos ∧
    (genRecs infos = [] →
      classifyCore infos (classifyCore infos st) = classifyCore infos st) := by
  by_cases h : (infos.length == 0) = true
  · have hnil : infos = [] := by cases infos <;> simp_all
    subst hnil
    simp [classifyCore, genRecs, severeIssues, missingCanIUse]
  · unfold classifyCore
    simp only [h, Bool.false_eq_true, if_false]
    refine ⟨trivial, trivial, trivial, fun hg => ?_⟩
    simp [hg]

/-- C5 witness for the amended claim: a compliant-only input generates no
recommendations, and there the rerun is a no-op. -/
theorem c5_rerun_report_witness :
    genRecs [infoCompliantW] = [] ∧
    classifyCore [infoCompliantW] (classifyCore [infoCompliantW] initialResults) =
      classifyCore [infoCompliantW] initialResults :=
  ⟨by decide, (c5_rerun_report [infoCompliantW] initialResults).2.2.2 (by decide)⟩

/-- C6: the exclusion set is checked before catalog lookup — `log` is in the
fixed exclusion set, and for every catalog (even one containing an
excluded name) no sighting and no finding ever carries an excluded callee
name. -/
theorem c6_exclusion_before_catalog :
    "log" ∈ excludedMethods ∧
    (∀ (cat : Catalog) (m : ArkMethod),
      (apiCallsWithLocation cat m).all
        (fun l => !(excludedMethods.contains l.api)) = true) ∧
    (∀ (cat : Catalog) (m : ArkMethod),
      (analyzeMethod cat m).all
        (fun i => !(excludedMethods.contains i.methodName)) = true) := by
  refine ⟨by decide, ?_, ?_⟩
  · intro cat m
    rw [List.all_eq_true]
    intro l hl
    have hx := apiCallsWithLocation_not_excluded cat m l hl
    simp only [hx, Bool.not_false]
  · intro cat m
    rw [List.all_eq_true]
    intro i hi
    obtain ⟨b, hbmem, rfl⟩ := mem_analyzeMethod hi
    rw [mkInfo_methodName]
    obtain ⟨l, hlmem, rfl⟩ :=
      List.mem_map.1 (mem_of_mem_dedupFirst hbmem)
    have hx := apiCallsWithLocation_not_excluded cat m l hlmem
    simp only [hx, Bool.not_false]

/-- C7: the location resolver is total and never raises: it returns `none`
when the file is missing/unreadable; on readable content it returns
exactly the 1-based index of the first candidate line (`none` when no
candidate exists); and the variant analyzer produces the same findings as
the location-free analyzer up to the recovered line number — in
particular, a sighting whose file cannot be read still yields its finding,
with the line number simply absent (last clause: concrete run with an
unreadable file store). -/
theorem c7_location_resolver_total :
    (∀ a mn : String, findApiLineNumber none a mn = none) ∧
    (∀ (src : String) (a mn : String),
      findApiLineNumber (some src) a mn =
        (firstCandidateIdx a (splitLines src.data)).map (fun i => i + 1)) ∧
    (∀ (cat : Catalog) (rf : String → Option String) (m : ArkMethod),
      (analyzeMethodP3 cat rf m).map eraseLine = (analyzeMethod cat m).map eraseLine) ∧
    (analyzeMethodP3 catW (fun _ => none) mW).map
        (fun i => (i.methodName, i.lineNumber)) = [("getCurrentLocation", none)] := by
  refine ⟨fun a mn => rfl, ?_, analyzeMethodP3_eraseLine, by decide⟩
  intro src a mn
  unfold findApiLineNumber
  dsimp only
  rw [findLineLoop_eq]

/-- C8: methods that contribute nothing produce nothing — a body-less method
yields no findings, a method with zero API sightings yields no findings,
such a method contributes nothing to the run's findings, and an empty
finding list leaves the Report state untouched (hence zero recommendation
strings). -/
theorem c8_empty_methods_contribute_nothing :
    (∀ (cat : Catalog) (m : ArkMethod), m.body = none → analyzeMethod cat m = []) ∧
    (∀ (cat : Catalog) (m : ArkMethod), apiCallsWithLocation cat m = [] →
      analyzeMethod cat m = []) ∧
    (∀ (cat : Catalog) (ms1 : List ArkMethod) (m : ArkMethod) (ms2 : List ArkMethod),
      analyzeMethod cat m = [] →
      analyzeApiCallsByMethod cat (ms1 ++ m :: ms2) =
        analyzeApiCallsByMethod cat (ms1 ++ ms2)) ∧
    (∀ st : AnalysisResult, classifyCore [] st = st) := by
  refine ⟨fun cat m h => analyzeMethod_body_none h, ?_, ?_, fun st => rfl⟩
  · intro cat m h
    cases hb : m.body with
    | none => exact analyzeMethod_body_none hb
    | some sts =>
      rw [analyzeMethod_body_some hb, h]
      rfl
  · intro cat ms1 m ms2 h
    unfold analyzeApiCallsByMethod
    simp [h]

/-- C8 witness: a body-less method and a sighting-free method produce no
findings, removing the body-less method leaves the run unchanged, and the
empty finding list leaves the initial Report untouched. -/
theorem c8_empty_methods_witness :
    analyzeMethod catW mNoBodyW = [] ∧ analyzeMethod catW mNoSightW = [] ∧
    analyzeApiCallsByMethod catW ([] ++ mNoBodyW :: [mW]) =
      analyzeApiCallsByMethod catW ([] ++ [mW]) ∧
    classifyCore [] initialResults = initialResults :=
  ⟨c8_empty_methods_contribute_nothing.1 catW mNoBodyW rfl,
   c8_empty_methods_contribute_nothing.2.1 catW mNoSightW (by decide),
   c8_empty_methods_contribute_nothing.2.2.1 catW [] mNoBodyW [mW]
     (c8_empty_methods_contribute_nothing.1 catW mNoBodyW rfl),
   c8_empty_methods_contribute_nothing.2.2.2 initialResults⟩

/-- C9: when the provider fails to build the program representation, the
exception is caught and the run returns a Report with the single run-level
error recommendation, an empty findings list, and all-zero summary
counts. -/
theorem c9_provider_failure_report (cat : Catalog) :
    analyze cat .err initialResults =
      { apiCalls := []
        recommendations := ["分析异常"]
        summary := { totalApiCalls := 0, apisWithCanIUse := 0
                     apisWithCorrectCanIUse := 0, apisWithTryCatch := 0 } } := rfl

/-- C10: a correct-capability guard implies some guard — every finding with
`hasCorrectCanIUse` also has `hasCanIUse`, and consequently in every run
summary the correct-guard count is at most the any-guard count. -/
theorem c10_correct_guard_implies_any_guard :
    (∀ (cat : Catalog) (m : ArkMethod),
      (analyzeMethod cat m).all
        (fun i => !i.hasCorrectCanIUse || i.hasCanIUse) = true) ∧
    (∀ (cat : Catalog) (b : BuildResult),
      (analyze cat b initialResults).summary.apisWithCorrectCanIUse ≤
        (analyze cat b initialResults).summary.apisWithCanIUse) := by
  constructor
  · intro cat m
    rw [List.all_eq_true]
    intro i hi
    by_cases hc : i.hasCorrectCanIUse = true
    · simp [hc, analyzeMethod_correct_imp_can hi hc]
    · rw [Bool.not_eq_true] at hc
      simp [hc]
  · intro cat b
    cases b with
    | err => exact Nat.le_refl 0
    | ok scene =>
      unfold analyze classifyCore
      by_cases h : ((analyzeApiCallsByMethod cat scene).length == 0) = true
      · simp [h, initialResults]
      · simp only [h, Bool.false_eq_true, if_false]
        rw [← List.countP_eq_length_filter, ← List.countP_eq_length_filter]
        apply List.countP_mono_left
        intro i hi hcorrect
        obtain ⟨m, _, him⟩ := mem_analyzeApiCallsByMethod hi
        exact analyzeMethod_correct_imp_can him hcorrect
